import Mathlib

/-!
Verification of the tree-synchronization and drag-reorder engine of the
taunotes repository, as implemented in `src/components/enhanced-sidebar.tsx`
(the final, pointer-tracking sidebar variant), in
`src/components/enhanced-sidebar-backup.tsx` (the dnd-kit variant that owns
the Order Store), and in the API modules `src/lib/tauri-api.ts` and its mock
counterpart.

Strings, paths and names are modelled by Lean `String`; all operations on
them are implemented over the underlying character list so that every
definition is executable and kernel-decidable.  Pointer coordinates (which
are IEEE doubles in the browser) are modelled by `ℚ`; the constants that
appear in the source (`0.25`, `0.75`, `5`, `15`) are all exactly
representable, so no rounding is lost.  Timestamps from `Date.now()` are
integers and modelled by `ℤ`.
-/

/-- One entry of a directory listing, from the `Entry` interface of
`src/lib/tauri-api.ts` (`name`, `path`, `is_dir`, `modified`). -/
structure Entry where
  name : String
  path : String
  is_dir : Bool
  modified : String
deriving DecidableEq, Repr

/-- A node of the sidebar file tree, from the `FileTreeNode` interface of
`enhanced-sidebar.tsx`. -/
structure FileTreeNode where
  entry : Entry
  children : List FileTreeNode
  isExpanded : Bool
deriving Repr

/-- `s.includes(c)` for a single-character needle. -/
def containsChar (s : String) (c : Char) : Bool := s.data.contains c

/-- The separator character the source picks for a path:
`p.includes("\\") ? "\\" : "/"`. -/
def sepChar (p : String) : Char := if containsChar p '\\' then '\\' else '/'

/-- The separator, as a one-character string (the form used when the source
concatenates paths). -/
def sepStr (p : String) : String := if containsChar p '\\' then "\\" else "/"

/-- Index of the last occurrence of `c` in `l` (JS `lastIndexOf` semantics:
`none` plays the role of `-1`). -/
def lastIdxOfChar : List Char → Char → Option Nat
  | [], _ => none
  | x :: xs, c =>
    match lastIdxOfChar xs c with
    | some i => some (i + 1)
    | none => if x == c then some 0 else none

/-- `getParentPath` from `enhanced-sidebar.tsx` (lines 68-72): take the text
before the last separator, or `""` when there is none. -/
def getParentPath (p : String) : String :=
  match lastIdxOfChar p.data (sepChar p) with
  | none => ""
  | some i => String.mk (p.data.take i)

/-- `p.split(/[\\/]/)`: split a path on both separator characters. -/
def splitPathAux : List Char → List Char → List String
  | [], cur => [String.mk cur.reverse]
  | c :: rest, cur =>
    if c == '/' || c == '\\' then String.mk cur.reverse :: splitPathAux rest []
    else splitPathAux rest (c :: cur)

/-- `p.split(/[\\/]/)` on a whole string. -/
def splitPath (p : String) : List String := splitPathAux p.data []

/-- `p.split(/[\\/]/).pop()!` — the last path segment.  `splitPath` never
returns an empty list, so the default is unreachable. -/
def baseName (p : String) : String := (splitPath p).getLastD ""

/-- The path concatenation used by `performDrop` and by the move branches of
`performReorder`: `dir ? dir + separator + fileName : fileName`. -/
def joinUnder (dir fileName : String) : String :=
  if dir == "" then fileName else dir ++ sepStr dir ++ fileName

/-- `entries.find(e => e.path === p)`. -/
def findEntry (entries : List Entry) (p : String) : Option Entry :=
  entries.find? (fun e => e.path == p)

/-- `findNodeByPath` from `enhanced-sidebar.tsx` (lines 149-156): depth-first
search of the file tree by path. -/
def findNodeByPath : List FileTreeNode → String → Option FileTreeNode
  | [], _ => none
  | n :: rest, target =>
    if n.entry.path == target then some n
    else
      match findNodeByPath n.children target with
      | some found => some found
      | none => findNodeByPath rest target
termination_by l _ => sizeOf l
decreasing_by
  all_goals (cases n; simp <;> omega)

/-- `replaceChildrenForPath` from `enhanced-sidebar.tsx` (lines 159-173):
replace the children of the node at `targetPath`, marking it expanded; the
recursion only descends into nodes that already have loaded children. -/
def replaceChildrenForPath : List FileTreeNode → String → List FileTreeNode → List FileTreeNode
  | [], _, _ => []
  | n :: rest, targetPath, newChildren =>
    (if n.entry.path == targetPath then
      { n with children := newChildren, isExpanded := true }
    else if n.children.length > 0 then
      { n with children := replaceChildrenForPath n.children targetPath newChildren }
    else n) :: replaceChildrenForPath rest targetPath newChildren
termination_by l _ _ => sizeOf l
decreasing_by
  all_goals (cases n; simp <;> omega)

/-- Drop placement relative to a target row (the `"before" | "after"` union
type of the insertion-line state). -/
inductive InsertPos where
  | before
  | after
deriving DecidableEq, Repr

/-- The `insertionLine` state of `enhanced-sidebar.tsx`:
`{ position, path, depth }`. -/
structure InsertionLine where
  position : InsertPos
  path : String
  depth : Nat
deriving DecidableEq, Repr

/- ### Drag-start thresholds (`handleMouseMove`, lines 289-312) -/

/-- Truthiness of `entry?.is_dir` after
`entries.find(ent => ent.path === filePath)`: missing entry reads as
`false`. -/
def entryIsDir (entries : List Entry) (filePath : String) : Bool :=
  match findEntry entries filePath with
  | some e => e.is_dir
  | none => false

/-- `const threshold = entry?.is_dir ? 15 : 5` (pixels). -/
def dragThreshold (entries : List Entry) (filePath : String) : ℚ :=
  if entryIsDir entries filePath then 15 else 5

/-- `const minTime = entry?.is_dir ? 200 : 50` (milliseconds). -/
def dragMinTime (entries : List Entry) (filePath : String) : ℤ :=
  if entryIsDir entries filePath then 200 else 50

/-- `handleMouseMove` of `enhanced-sidebar.tsx`, restricted to its decision
whether the pressed gesture becomes a drag: returns `true` exactly when the
handler calls `setIsDragging(true)`.  `hasStart` models
`dragStartPos && dragStartTime` being set. -/
def startsDrag (entries : List Entry) (filePath : String)
    (startX startY x y : ℚ) (startTime now : ℤ)
    (hasStart isDragging : Bool) : Bool :=
  if !hasStart || isDragging then false
  else
    let deltaX := |x - startX|
    let deltaY := |y - startY|
    let timeElapsed := now - startTime
    let threshold := dragThreshold entries filePath
    let minTime := dragMinTime entries filePath
    (decide (deltaX > threshold) || decide (deltaY > threshold)) &&
      decide (timeElapsed > minTime)

/- ### Hover classification (`handleMouseEnter`, lines 314-390) -/

/-- The part of the sidebar state that `handleMouseEnter` recomputes on every
pointer move during a drag (`animatedSpacing` always mirrors
`insertionLine`, so it is not duplicated here). -/
structure HoverResult where
  dragOverTarget : Option String
  insertionLine : Option InsertionLine
deriving DecidableEq, Repr

/-- The depth used for a folder-exit insertion line:
`Math.max(0, getParentPath(targetPath).split(/[\\/]/).filter(p => p).length)`
(the `max` with `0` is the identity on a list length). -/
def folderExitDepth (targetPath : String) : Nat :=
  ((splitPath (getParentPath targetPath)).filter (fun s => !(s == ""))).length

/-- The body of `handleMouseEnter` (lines 324-384) once its guards have
passed: the drag is active, the target entry was found, the target is not the
dragged item itself, a mouse event is present and the context is `"tree"`.
`rectTop` and `elementHeight` describe the hovered row's bounding rectangle,
`mouseY` is `event.clientY`. -/
def classifyHoverTree (draggedItem : String) (targetEntry : Entry)
    (targetPath : String) (depth : Nat)
    (rectTop elementHeight mouseY : ℚ) : HoverResult :=
  let relativeY := mouseY - rectTop
  if targetEntry.is_dir then
    let topZone := elementHeight * 0.25
    let bottomZone := elementHeight * 0.75
    if relativeY < topZone then
      if getParentPath draggedItem == targetPath then
        { dragOverTarget := none,
          insertionLine := some ⟨.before, targetPath, folderExitDepth targetPath⟩ }
      else
        { dragOverTarget := none,
          insertionLine := some ⟨.before, targetPath, depth⟩ }
    else if relativeY > bottomZone then
      if getParentPath draggedItem == targetPath then
        { dragOverTarget := none,
          insertionLine := some ⟨.after, targetPath, folderExitDepth targetPath⟩ }
      else
        { dragOverTarget := none,
          insertionLine := some ⟨.after, targetPath, depth⟩ }
    else
      { dragOverTarget := some targetPath, insertionLine := none }
  else
    let elementMiddle := rectTop + elementHeight / 2
    let position : InsertPos := if mouseY < elementMiddle then .before else .after
    { dragOverTarget := none,
      insertionLine := some ⟨position, targetPath, depth⟩ }

/-- The position recorded by a hover classification, if any. -/
def hoverPosition (r : HoverResult) : Option InsertPos :=
  r.insertionLine.map (fun l => l.position)

/- ### Drop and reorder effects (`handleMouseUp`, `performDrop`,
`performReorder` of `enhanced-sidebar.tsx`, lines 416-565) -/

/-- A call into the API module (`@/lib/tauri-api`) issued by the sidebar.
`listEntries none` is the root listing issued by `loadEntries()`;
`reorderEntries` records the signature with which the sidebar invokes the
(missing) reorder API. -/
inductive ApiCall where
  | listEntries (dir : Option String)
  | renameEntry (src dst : String)
  | reorderEntries (dir : Option String) (src tgt : String) (pos : InsertPos)
deriving DecidableEq, Repr

/-- Result of one drop/reorder step: the API calls it issued, in order, and
whether it ended in its `catch` block (an alert; nothing is rethrown). -/
structure StepResult where
  calls : List ApiCall
  errored : Bool
deriving DecidableEq, Repr

/-- The value (non-type) exports of `src/lib/tauri-api.ts`.  The module also
exports the `Entry` interface as a type. -/
def tauriApiValueExports : List String :=
  ["setVault", "getVault", "listEntries", "createNote", "createFolder",
   "readNote", "writeNote", "renameEntry", "deleteEntry", "revealInOS",
   "selectFolder", "selectFile"]

/-- The value (non-type) exports of the mock API module (the web fallback
variant of `tauri-api`, `src/unnamed/part_000`). -/
def mockTauriApiValueExports : List String :=
  ["setVault", "getVault", "listEntries", "createNote", "createFolder",
   "readNote", "writeNote", "renameEntry", "deleteEntry", "revealInOS",
   "selectFolder", "selectFile"]

/-- The names `enhanced-sidebar.tsx` imports from `@/lib/tauri-api`
(line 23), besides the type import `Entry`. -/
def enhancedSidebarApiImports : List String :=
  ["listEntries", "createNote", "createFolder", "deleteEntry", "renameEntry",
   "reorderEntries"]

/-- Whether any API module of the repository defines `reorderEntries`.  No
module does, so the imported binding is undefined and every call to it
raises a `TypeError` before reaching any backend command. -/
def reorderEntriesDefined : Bool :=
  tauriApiValueExports.contains "reorderEntries" ||
    mockTauriApiValueExports.contains "reorderEntries"

/-- `performDrop` of `enhanced-sidebar.tsx` (lines 483-502): rename the
source under the target folder, then refresh via `loadEntries()`. -/
def performDrop (sourcePath targetFolderPath : String) : StepResult :=
  let fileName := baseName sourcePath
  let newPath := joinUnder targetFolderPath fileName
  { calls := [.renameEntry sourcePath newPath, .listEntries none],
    errored := false }

/-- The folder-exit test at the top of `performReorder` (line 511):
`draggedEntry?.is_dir && sourceDir === insertionInfo.path`, where
`draggedEntry` is the entry found at the insertion target's path. -/
def isFolderExit (entries : List Entry) (sourcePath : String)
    (info : InsertionLine) : Bool :=
  (match findEntry entries info.path with
   | some e => e.is_dir
   | none => false) && (getParentPath sourcePath == info.path)

/-- `performReorder` of `enhanced-sidebar.tsx` (lines 504-565), as the
sequence of API calls it issues.  The calls to the undefined import
`reorderEntries` throw before reaching any backend command, which aborts the
`try` block (so the subsequent `loadEntries()` refresh is skipped) and lands
in the `catch` (alert) — this is the `reorderEntriesDefined = false` arm of
each branch. -/
def performReorder (entries : List Entry) (sourcePath : String)
    (info : InsertionLine) : StepResult :=
  let sourceDir := getParentPath sourcePath
  if isFolderExit entries sourcePath info then
    let fileName := baseName sourcePath
    let targetDir := getParentPath info.path
    let newPath := joinUnder targetDir fileName
    if reorderEntriesDefined then
      { calls := [.renameEntry sourcePath newPath,
                  .reorderEntries (if targetDir == "" then none else some targetDir)
                    newPath info.path info.position,
                  .listEntries none],
        errored := false }
    else
      { calls := [.renameEntry sourcePath newPath], errored := true }
  else
    let targetDir := getParentPath info.path
    if targetDir != sourceDir then
      let fileName := baseName sourcePath
      let newPath := joinUnder targetDir fileName
      { calls := [.renameEntry sourcePath newPath, .listEntries none],
        errored := false }
    else
      if reorderEntriesDefined then
        { calls := [.reorderEntries (if sourceDir == "" then none else some sourceDir)
                      sourcePath info.path info.position,
                    .listEntries none],
          errored := false }
      else
        { calls := [], errored := true }

/-- The drop half of `handleMouseUp` (lines 452-466), reached when a drag is
active (`isDragging` and `draggedItem` set): an insertion line takes
priority and goes to `performReorder`; otherwise a mouse-up on a directory
target distinct from the dragged item goes to `performDrop`; everything else
only resets drag state. -/
def handleMouseUpDrop (entries : List Entry) (tree : List FileTreeNode)
    (draggedItem : String) (insertionLine : Option InsertionLine)
    (targetPath : Option String) : StepResult :=
  match insertionLine with
  | some info => performReorder entries draggedItem info
  | none =>
    match targetPath with
    | some tp =>
      if tp != draggedItem then
        match (match findEntry entries tp with
               | some e => some e
               | none => (findNodeByPath tree tp).map (fun (n : FileTreeNode) => n.entry)) with
        | some e => if e.is_dir then performDrop draggedItem tp
                    else { calls := [], errored := false }
        | none => { calls := [], errored := false }
      else { calls := [], errored := false }
    | none => { calls := [], errored := false }

/-- Calls that mutate the file system or the order sidecar. -/
def isMutation : ApiCall → Bool
  | .renameEntry _ _ => true
  | .reorderEntries _ _ _ _ => true
  | .listEntries _ => false

/-- Calls that would write an order record (the reorder API is the only
order-record writer reachable from this variant). -/
def isOrderWrite : ApiCall → Bool
  | .reorderEntries _ _ _ _ => true
  | _ => false

/-- The cycle-guard condition as the specification states it: the resolved
target equals the source, or extends the source by a separator (the target
lies strictly inside the source's subtree). -/
def specCycleCondition (sourcePath targetPath : String) : Bool :=
  targetPath == sourcePath ||
    (sourcePath ++ sepStr sourcePath).data.isPrefixOf targetPath.data

/- ### Children loading and failure semantics (`loadChildrenForFolder`,
`enhanced-sidebar.tsx` lines 176-188) -/

/-- Observable outcome of one `loadChildrenForFolder` call: the file tree
afterwards, how many `console.error` logs were emitted, and whether the
returned promise rejects (whether the caller can observe the failure). -/
structure LoadChildrenOutcome where
  tree : List FileTreeNode
  consoleErrors : Nat
  thrownToCaller : Bool
deriving Repr

/-- `loadChildrenForFolder` of `enhanced-sidebar.tsx`: on a successful
listing it replaces the folder's children; on a rejected listing the `catch`
block logs to the console and completes normally — the tree state is not
touched and nothing is rethrown. -/
def loadChildrenForFolder (prevTree : List FileTreeNode)
    (expandedPaths : List String) (folderPath : String)
    (listing : Except String (List Entry)) : LoadChildrenOutcome :=
  match listing with
  | .ok children =>
    let childNodes : List FileTreeNode :=
      children.map (fun e => ⟨e, [], expandedPaths.contains e.path⟩)
    ⟨replaceChildrenForPath prevTree folderPath childNodes, 0, false⟩
  | .error _ => ⟨prevTree, 1, false⟩

/-- A tree in which folder `A` has already been rendered with one child. -/
def treeWithLoadedA : List FileTreeNode :=
  [⟨⟨"A", "A", true, ""⟩, [⟨⟨"a.md", "A/a.md", false, ""⟩, [], false⟩], true⟩]

/- ### Sibling ordering (backup variant `loadChildrenForFolder` comparator,
`enhanced-sidebar-backup.tsx` lines 219-229, and final variant
`buildFileTree`/`sortNodes`, `enhanced-sidebar.tsx` lines 122-132) -/

/-- Models `String.prototype.localeCompare` with the default locale, to the
extent the repository relies on it: the primary comparison is
case-insensitive (characters compared after ASCII case folding via
`Char.toLower`), and names equal under folding are ordered by code point.
(ICU's tertiary level orders lowercase first among fold-equal names; no
claim proved here depends on the direction of that tie-break.) -/
def localeCompare (a b : String) : Int :=
  let la := a.data.map Char.toLower
  let lb := b.data.map Char.toLower
  if la < lb then -1
  else if lb < la then 1
  else if a.data < b.data then -1
  else if b.data < a.data then 1
  else 0

/-- `Number.MAX_SAFE_INTEGER`, the sentinel index for names absent from the
order record. -/
def MAX_SAFE_INTEGER : Nat := 9007199254740991

/-- Lookup in `new Map(saved.map((n, i) => [n, i]))`: on duplicate names the
later index wins, because a JS `Map` keeps the last insertion for a key. -/
def nameToIndex : List String → Nat → String → Option Nat
  | [], _, _ => none
  | s :: rest, i, n =>
    match nameToIndex rest (i + 1) n with
    | some j => some j
    | none => if s == n then some i else none

/-- `nameToIndex.has(name) ? nameToIndex.get(name) : Number.MAX_SAFE_INTEGER`. -/
def savedIndex (saved : List String) (n : String) : Nat :=
  (nameToIndex saved 0 n).getD MAX_SAFE_INTEGER

/-- The comparator the backup variant passes to `childNodes.sort` (lines
222-229): saved-order index first, then directories before files, then
`localeCompare` on names. -/
def cmpChildren (saved : List String) (a b : Entry) : Int :=
  let ai := savedIndex saved a.name
  let bi := savedIndex saved b.name
  if ai ≠ bi then (ai : Int) - (bi : Int)
  else if a.is_dir && !b.is_dir then -1
  else if !a.is_dir && b.is_dir then 1
  else localeCompare a.name b.name

/-- `a` sorts no later than `b` under the backup comparator (the relation a
consistent `Array.sort` comparator induces on the result). -/
def childLe (saved : List String) (a b : FileTreeNode) : Prop :=
  cmpChildren saved a.entry b.entry ≤ 0

instance childLeDecidable (saved : List String) :
    DecidableRel (childLe saved) :=
  fun _ _ => inferInstanceAs (Decidable (_ ≤ _))

/-- The child-node sort of the backup variant's `loadChildrenForFolder`.
`Array.sort` with a consistent comparator is a stable sort by the
comparator's `≤ 0` relation, which `List.insertionSort` implements
exactly. -/
def sortChildNodes (saved : List String) (nodes : List FileTreeNode) :
    List FileTreeNode :=
  List.insertionSort (childLe saved) nodes

/-- Directory-before-file rank: `0` for directories, `1` for files. -/
def entryRank (e : Entry) : Nat := if e.is_dir then 0 else 1

/-- The comparator as a lexicographic key: saved index, then kind rank, then
case-folded name, then raw name. -/
def sortKey (saved : List String) (e : Entry) :
    Lex (Nat × Lex (Nat × Lex (List Char × List Char))) :=
  toLex (savedIndex saved e.name,
    toLex (entryRank e,
      toLex (e.name.data.map Char.toLower, e.name.data)))

/-- The comparator of `sortNodes` inside `buildFileTree` of the final
variant (`enhanced-sidebar.tsx` lines 123-130): directories before files,
then `localeCompare`; no order record is consulted. -/
def cmpNodesFinal (a b : FileTreeNode) : Int :=
  if a.entry.is_dir && !b.entry.is_dir then -1
  else if !a.entry.is_dir && b.entry.is_dir then 1
  else localeCompare a.entry.name b.entry.name

/-- `a` sorts no later than `b` under the final variant's comparator. -/
def nodeLeFinal (a b : FileTreeNode) : Prop := cmpNodesFinal a b ≤ 0

instance nodeLeFinalDecidable : DecidableRel nodeLeFinal :=
  fun _ _ => inferInstanceAs (Decidable (_ ≤ _))

/-- `sortNodes` of `buildFileTree`: sorts one sibling level (when
`buildFileTree` runs, every node's `children` list is still empty, so the
recursive child sort of the source is a no-op). -/
def sortNodesFinal (nodes : List FileTreeNode) : List FileTreeNode :=
  List.insertionSort nodeLeFinal nodes

/-- `buildFileTree` of `enhanced-sidebar.tsx` (lines 98-146, state-update
part): filter out `.tau_order.json` sidecar entries, keep the entries whose
path has no separator as the root level, and sort them with `sortNodes`. -/
def buildFileTree (expandedPaths : List String) (entries : List Entry) :
    List FileTreeNode :=
  let filtered := entries.filter
    (fun e => !((".tau_order.json".data).isSuffixOf e.name.data))
  let roots := filtered.filter
    (fun e => !(containsChar e.path '/') && !(containsChar e.path '\\'))
  sortNodesFinal (roots.map (fun e => ⟨e, [], expandedPaths.contains e.path⟩))

/- ### Same-parent reorder splice (backup variant `onDragEnd`,
`enhanced-sidebar-backup.tsx` lines 657-671) -/

/-- `l.splice(j, 0, x)` insertion semantics: insert at index `j`, clamped to
the end of the list. -/
def insertAt (l : List α) (j : Nat) (x : α) : List α :=
  l.take j ++ x :: l.drop j

/-- dnd-kit's `arrayMove`: copy, `splice` out the element at `i`, `splice`
it back in at `j` (an index in the reduced array).  The source would splice
`undefined` in when `i` is out of range; the caller guards both indices with
`!== -1` checks, so that case is modelled as the identity. -/
def arrayMove (l : List α) (i j : Nat) : List α :=
  match l[i]? with
  | some x => insertAt (l.eraseIdx i) j x
  | none => l

/-- The same-parent reorder branch of the backup variant's `onDragEnd`:
read the sibling name order, find both names (`indexOf`, guarded against
`-1`), adjust the target index by `+1` for "after", pre-compensate the
removal (`to > from ? to - 1 : to`), splice with `arrayMove`, and hand the
result to `saveOrder`.  `none` models the guard failing, in which case
nothing is saved. -/
def dragEndReorder (order : List String) (sourceName targetName : String)
    (pos : InsertPos) : Option (List String) :=
  let idxFrom := List.indexOf sourceName order
  let idxTo := List.indexOf targetName order
  if sourceName ∈ order ∧ targetName ∈ order then
    let toIdx := match pos with | .before => idxTo | .after => idxTo + 1
    some (arrayMove order idxFrom (if toIdx > idxFrom then toIdx - 1 else toIdx))
  else none

/-- The reorder result as the specification words it: remove the source
name from the current order, then reinsert it immediately before the target
name (for "before") or immediately after it (for "after"). -/
def specReorderedNames (order : List String) (s t : String)
    (pos : InsertPos) : List String :=
  let rest := order.erase s
  let k := List.indexOf t rest
  insertAt rest (match pos with | .before => k | .after => k + 1) s

/- ### Order Store round-trip (backup variant `loadOrder` / `saveOrder`,
`enhanced-sidebar-backup.tsx` lines 64-85).

`saveOrder` writes `JSON.stringify(names)` into the sidecar resource
through `writeNote`; `loadOrder` reads it back with `readNote` and
`JSON.parse`.  The codec below models the ECMAScript `JSON.stringify`
output format for an array of strings (double quotes, `\"`, `\\`, `\n`,
`\r`, `\t`, `\b`, `\f`, `\u00XX` for other control characters, no
whitespace) and the part of `JSON.parse` that reads that canonical form:
`save` always writes canonically, so the claims never exercise whitespace
or non-canonical escapes.  `Char.toLower`-free, pure `List Char`
processing keeps every function kernel-computable. -/

/-- Lowercase hexadecimal digit, as produced by JS `toString(16)`. -/
def hexDigitChar (n : Nat) : Char :=
  if n < 10 then Char.ofNat (48 + n) else Char.ofNat (87 + n)

/-- `JSON.stringify`'s escape of one character inside a string literal. -/
def escChar (c : Char) : List Char :=
  if c == '"' then ['\\', '"']
  else if c == '\\' then ['\\', '\\']
  else if c == '\n' then ['\\', 'n']
  else if c == '\r' then ['\\', 'r']
  else if c == '\t' then ['\\', 't']
  else if c.toNat == 8 then ['\\', 'b']
  else if c.toNat == 12 then ['\\', 'f']
  else if c.toNat < 32 then
    ['\\', 'u', '0', '0', hexDigitChar (c.toNat / 16),
      hexDigitChar (c.toNat % 16)]
  else [c]

/-- Escape a whole string body. -/
def escapeChars : List Char → List Char
  | [] => []
  | c :: cs => escChar c ++ escapeChars cs

/-- The comma-separated items of a non-empty JSON string array, including
the closing bracket. -/
def encodeItems : List Char → List (List Char) → List Char
  | s, [] => '"' :: (escapeChars s ++ ['"', ']'])
  | s, t :: ts => '"' :: (escapeChars s ++ ['"', ','] ++ encodeItems t ts)

/-- `JSON.stringify` of an array of strings (character-list level). -/
def jsonEncodeStringList : List (List Char) → List Char
  | [] => ['[', ']']
  | s :: ss => '[' :: encodeItems s ss

/-- `JSON.stringify(names)` as called by `saveOrder`. -/
def jsonStringifyStrings (names : List String) : String :=
  String.mk (jsonEncodeStringList (names.map String.data))

/-- Value of one hexadecimal digit character, or `none`. -/
def hexVal (c : Char) : Option Nat :=
  let n := c.toNat
  if 48 ≤ n ∧ n ≤ 57 then some (n - 48)
  else if 97 ≤ n ∧ n ≤ 102 then some (n - 87)
  else if 65 ≤ n ∧ n ≤ 70 then some (n - 55)
  else none

/-- One JSON string escape after a backslash. -/
def parseEsc : List Char → Option (Char × List Char)
  | '"' :: r => some ('"', r)
  | '\\' :: r => some ('\\', r)
  | '/' :: r => some ('/', r)
  | 'b' :: r => some (Char.ofNat 8, r)
  | 'f' :: r => some (Char.ofNat 12, r)
  | 'n' :: r => some ('\n', r)
  | 'r' :: r => some ('\r', r)
  | 't' :: r => some ('\t', r)
  | 'u' :: h1 :: h2 :: h3 :: h4 :: r =>
    match hexVal h1, hexVal h2, hexVal h3, hexVal h4 with
    | some a, some b, some c, some d =>
      some (Char.ofNat (((a * 16 + b) * 16 + c) * 16 + d), r)
    | _, _, _, _ => none
  | _ => none

/-- JSON string body parser (the opening quote already consumed); consumes
through the closing quote.  The fuel argument only serves termination; one
unit is spent per produced character. -/
def parseStr : Nat → List Char → Option (List Char × List Char)
  | 0, _ => none
  | _ + 1, [] => none
  | fuel + 1, c :: rest =>
    if c == '"' then some ([], rest)
    else if c == '\\' then
      match parseEsc rest with
      | none => none
      | some (ch, rest2) =>
        match parseStr fuel rest2 with
        | none => none
        | some (s, rest3) => some (ch :: s, rest3)
    else
      match parseStr fuel rest with
      | none => none
      | some (s, rest2) => some (c :: s, rest2)

/-- Items of a JSON string array (after the opening bracket, for a
non-empty array); consumes through the closing bracket. -/
def parseItems : Nat → List Char → Option (List (List Char) × List Char)
  | 0, _ => none
  | fuel + 1, input =>
    match input with
    | '"' :: rest =>
      match parseStr (rest.length + 1) rest with
      | none => none
      | some (s, r) =>
        match r with
        | ']' :: r2 => some ([s], r2)
        | ',' :: r2 =>
          match parseItems fuel r2 with
          | none => none
          | some (ss, r3) => some (s :: ss, r3)
        | _ => none
    | _ => none

/-- `JSON.parse(content)` restricted to arrays of strings in the canonical
form `jsonStringifyStrings` produces; anything else is a parse failure
(`none`), which `loadOrder`'s catch turns into `[]`. -/
def jsonParseStrings (content : String) : Option (List String) :=
  match content.data with
  | '[' :: ']' :: rest => if rest.isEmpty then some [] else none
  | '[' :: rest =>
    match parseItems rest.length rest with
    | none => none
    | some (ss, r) => if r.isEmpty then some (ss.map String.mk) else none
  | _ => none

/-- The Entry Source resource state visible through `readNote`/`writeNote`:
a map from vault-relative path to text content. -/
def Resources : Type := String → Option String

/-- `writeNote(path, content)`: full replacement of one resource. -/
def writeNoteRes (st : Resources) (p content : String) : Resources :=
  fun q => if q == p then some content else st q

/-- The sidecar path used by both `loadOrder` and `saveOrder`:
`folderPath ? folderPath + sep + ".tau_order.json" : ".tau_order.json"`. -/
def orderFilePath (folderPath : String) : String :=
  if folderPath == "" then ".tau_order.json"
  else folderPath ++ sepStr folderPath ++ ".tau_order.json"

/-- `saveOrder` of the backup variant: write the JSON-encoded name list
into the sidecar resource (the in-memory `orderMap` cache mirrors it and is
not modelled separately). -/
def saveOrder (st : Resources) (folderPath : String) (names : List String) :
    Resources :=
  writeNoteRes st (orderFilePath folderPath) (jsonStringifyStrings names)

/-- `loadOrder` of the backup variant: read the sidecar resource and
`JSON.parse` it; a missing resource or a parse error is caught and yields
`[]`. -/
def loadOrder (st : Resources) (folderPath : String) : List String :=
  match st (orderFilePath folderPath) with
  | none => []
  | some content =>
    match jsonParseStrings content with
    | some names => names
    | none => []

example :
    hoverPosition (classifyHoverTree "X" ⟨"D", "D", true, ""⟩ "D" 0 0 40 5) =
      some .before := by
  have hx : getParentPath "X" = "" := by decide
  norm_num [classifyHoverTree, hoverPosition, hx,
    if_neg (show ¬ ("" : String) = "D" by decide)]

example :
    hoverPosition (classifyHoverTree "X" ⟨"D", "D", true, ""⟩ "D" 0 0 40 20) =
      none := by
  have hx : getParentPath "X" = "" := by decide
  norm_num [classifyHoverTree, hoverPosition, hx]

/-- C7: while a drag is active, hovering over a directory row classifies the
pointer position by vertical zones of the row height — strictly inside the
top 25% as `before`, strictly inside the bottom 25% as `after`, and the
middle 50% (boundaries included) as `inside` (`dragOverTarget` set, no
insertion line); hovering over a file row splits at the midpoint into
`before` / `after` and never produces an `inside` drop target. -/
theorem hover_zone_classification
    (draggedItem targetPath : String) (targetEntry : Entry) (depth : Nat)
    (rectTop elementHeight mouseY : ℚ) (hh : 0 < elementHeight) :
    (targetEntry.is_dir = true →
      (hoverPosition (classifyHoverTree draggedItem targetEntry targetPath depth
          rectTop elementHeight mouseY) = some .before ↔
        mouseY - rectTop < elementHeight * 0.25) ∧
      (hoverPosition (classifyHoverTree draggedItem targetEntry targetPath depth
          rectTop elementHeight mouseY) = some .after ↔
        elementHeight * 0.75 < mouseY - rectTop) ∧
      ((classifyHoverTree draggedItem targetEntry targetPath depth
          rectTop elementHeight mouseY).dragOverTarget = some targetPath ↔
        elementHeight * 0.25 ≤ mouseY - rectTop ∧
          mouseY - rectTop ≤ elementHeight * 0.75)) ∧
    (targetEntry.is_dir = false →
      (hoverPosition (classifyHoverTree draggedItem targetEntry targetPath depth
          rectTop elementHeight mouseY) = some .before ↔
        mouseY < rectTop + elementHeight / 2) ∧
      (hoverPosition (classifyHoverTree draggedItem targetEntry targetPath depth
          rectTop elementHeight mouseY) = some .after ↔
        ¬ mouseY < rectTop + elementHeight / 2) ∧
      (classifyHoverTree draggedItem targetEntry targetPath depth
          rectTop elementHeight mouseY).dragOverTarget = none) := by
  constructor
  · intro hdir
    simp only [classifyHoverTree, hdir, if_true]
    split_ifs with h1 hfe h2 hfe2 <;>
      refine ⟨?_, ?_, ?_⟩ <;>
      simp only [hoverPosition, Option.map_some', Option.map_none',
        Option.some.injEq, reduceCtorEq, iff_true, iff_false, false_iff,
        true_iff, not_lt, not_le, not_and] <;>
      try linarith
    all_goals try (intro hx; linarith)
    all_goals constructor <;> linarith
  · intro hdir
    simp only [classifyHoverTree, hdir, Bool.false_eq_true, if_false]
    split_ifs with h1 <;> simp_all [hoverPosition]

/-- Witness for `hover_zone_classification`: a 40-pixel-high directory row at
the origin, pointer 5 pixels below the top (top zone), with a positive row
height discharging the hypothesis. -/
theorem hover_zone_classification_witness :
    (0 : ℚ) < 40 ∧
    (((⟨"D", "D", true, ""⟩ : Entry).is_dir = true →
      (hoverPosition (classifyHoverTree "X" ⟨"D", "D", true, ""⟩ "D" 0 0 40 5) =
          some .before ↔ (5 : ℚ) - 0 < 40 * 0.25) ∧
      (hoverPosition (classifyHoverTree "X" ⟨"D", "D", true, ""⟩ "D" 0 0 40 5) =
          some .after ↔ (40 : ℚ) * 0.75 < 5 - 0) ∧
      ((classifyHoverTree "X" ⟨"D", "D", true, ""⟩ "D" 0 0 40 5).dragOverTarget =
          some "D" ↔ (40 : ℚ) * 0.25 ≤ 5 - 0 ∧ (5 : ℚ) - 0 ≤ 40 * 0.75)) ∧
    ((⟨"D", "D", true, ""⟩ : Entry).is_dir = false →
      (hoverPosition (classifyHoverTree "X" ⟨"D", "D", true, ""⟩ "D" 0 0 40 5) =
          some .before ↔ (5 : ℚ) < 0 + 40 / 2) ∧
      (hoverPosition (classifyHoverTree "X" ⟨"D", "D", true, ""⟩ "D" 0 0 40 5) =
          some .after ↔ ¬ (5 : ℚ) < 0 + 40 / 2) ∧
      (classifyHoverTree "X" ⟨"D", "D", true, ""⟩ "D" 0 0 40 5).dragOverTarget =
          none)) :=
  ⟨by norm_num, hover_zone_classification "X" "D" ⟨"D", "D", true, ""⟩ 0 0 40 5 (by norm_num)⟩

/-- C8: a pressed-but-not-yet-dragging gesture becomes a drag exactly when
the horizontal or vertical displacement strictly exceeds the per-kind pixel
threshold and the elapsed time strictly exceeds the per-kind minimum; the
file constants are 5px / 50ms and the directory constants 15px / 200ms,
inside the 10-15px / 150-200ms range; a gesture with no recorded start, or
one already dragging, never (re)starts a drag. -/
theorem drag_start_thresholds (entries : List Entry) (filePath : String)
    (startX startY x y : ℚ) (startTime now : ℤ) :
    (startsDrag entries filePath startX startY x y startTime now true false = true ↔
      ((|x - startX| > dragThreshold entries filePath ∨
        |y - startY| > dragThreshold entries filePath) ∧
        now - startTime > dragMinTime entries filePath)) ∧
    (entryIsDir entries filePath = true →
      dragThreshold entries filePath = 15 ∧ dragMinTime entries filePath = 200) ∧
    (entryIsDir entries filePath = false →
      dragThreshold entries filePath = 5 ∧ dragMinTime entries filePath = 50) ∧
    ((10 : ℚ) ≤ 15 ∧ (15 : ℚ) ≤ 15 ∧ (150 : ℤ) ≤ 200 ∧ (200 : ℤ) ≤ 200) ∧
    (∀ hasStart isDragging : Bool,
      startsDrag entries filePath startX startY x y startTime now
          hasStart isDragging = true →
        hasStart = true ∧ isDragging = false) := by
  refine ⟨?_, ?_, ?_, by norm_num, ?_⟩
  · simp [startsDrag, and_comm]
  · intro h; simp [dragThreshold, dragMinTime, h]
  · intro h; simp [dragThreshold, dragMinTime, h]
  · intro hasStart isDragging h
    cases hasStart <;> cases isDragging <;> simp_all [startsDrag]

/-- Witness for `drag_start_thresholds`: a file entry dragged 6 pixels to the
right after 60 milliseconds (all inner implications instantiated at a file
row). -/
theorem drag_start_thresholds_witness :
    (startsDrag [⟨"n.md", "n.md", false, ""⟩] "n.md" 0 0 6 0 0 60 true false = true ↔
      ((|(6 : ℚ) - 0| > dragThreshold [⟨"n.md", "n.md", false, ""⟩] "n.md" ∨
        |(0 : ℚ) - 0| > dragThreshold [⟨"n.md", "n.md", false, ""⟩] "n.md") ∧
        (60 : ℤ) - 0 > dragMinTime [⟨"n.md", "n.md", false, ""⟩] "n.md")) ∧
    (entryIsDir [⟨"n.md", "n.md", false, ""⟩] "n.md" = true →
      dragThreshold [⟨"n.md", "n.md", false, ""⟩] "n.md" = 15 ∧
        dragMinTime [⟨"n.md", "n.md", false, ""⟩] "n.md" = 200) ∧
    (entryIsDir [⟨"n.md", "n.md", false, ""⟩] "n.md" = false →
      dragThreshold [⟨"n.md", "n.md", false, ""⟩] "n.md" = 5 ∧
        dragMinTime [⟨"n.md", "n.md", false, ""⟩] "n.md" = 50) ∧
    ((10 : ℚ) ≤ 15 ∧ (15 : ℚ) ≤ 15 ∧ (150 : ℤ) ≤ 200 ∧ (200 : ℤ) ≤ 200) ∧
    (∀ hasStart isDragging : Bool,
      startsDrag [⟨"n.md", "n.md", false, ""⟩] "n.md" 0 0 6 0 0 60
          hasStart isDragging = true →
        hasStart = true ∧ isDragging = false) :=
  drag_start_thresholds [⟨"n.md", "n.md", false, ""⟩] "n.md" 0 0 6 0 0 60

/-- C1 counterexample: with directory `A` expanded so that its child
directory `A/B` is a visible row, finishing a drag of `A` over the middle of
the `A/B` row (no insertion line, mouse-up target `A/B`) satisfies the
specification's cycle condition, yet `handleMouseUp` does not reject it: it
reaches `performDrop`, which issues `renameEntry("A", "A/B/A")` — an Entry
Source call moving the folder into its own subtree.  The final sidebar
variant checks only `targetPath !== draggedItem`; the descendant check
exists only in the dnd-kit backup variant. -/
theorem cycle_guard_counterexample :
    specCycleCondition "A" "A/B" = true ∧
    handleMouseUpDrop [⟨"A", "A", true, ""⟩, ⟨"B", "A/B", true, ""⟩] []
        "A" none (some "A/B") =
      ⟨[.renameEntry "A" "A/B/A", .listEntries none], false⟩ ∧
    ((handleMouseUpDrop [⟨"A", "A", true, ""⟩, ⟨"B", "A/B", true, ""⟩] []
        "A" none (some "A/B")).calls.any isMutation) = true := by
  decide

/-- C1 (amended): only a drop whose target equals the dragged item is
rejected with no Entry Source call; a drop onto a directory target strictly
inside the source's subtree is not guarded in this variant — `performDrop`
issues `renameEntry(source, target + sep + baseName(source))` (and the
refresh listing) just as for any other directory target. -/
theorem cycle_guard_amended (entries : List Entry) (tree : List FileTreeNode)
    (src tp : String) (e : Entry)
    (hfind : findEntry entries tp = some e) (hdir : e.is_dir = true)
    (hneq : (tp == src) = false) :
    handleMouseUpDrop entries tree src none (some tp) =
      ⟨[.renameEntry src (joinUnder tp (baseName src)), .listEntries none],
        false⟩ ∧
    handleMouseUpDrop entries tree tp none (some tp) =
      ⟨[], false⟩ := by
  constructor
  · simp [handleMouseUpDrop, hfind, hdir, hneq, bne, performDrop]
  · simp [handleMouseUpDrop, bne]

/-- Witness for `cycle_guard_amended`: the drop of `A` onto its descendant
`A/B` (the hypotheses only require a directory target different from the
source, which the cycle case satisfies). -/
theorem cycle_guard_amended_witness :
    findEntry [⟨"A", "A", true, ""⟩, ⟨"B", "A/B", true, ""⟩] "A/B" =
      some ⟨"B", "A/B", true, ""⟩ ∧
    (⟨"B", "A/B", true, ""⟩ : Entry).is_dir = true ∧
    (("A/B" == "A") = false) ∧
    (handleMouseUpDrop [⟨"A", "A", true, ""⟩, ⟨"B", "A/B", true, ""⟩] []
        "A" none (some "A/B") =
      ⟨[.renameEntry "A" (joinUnder "A/B" (baseName "A")), .listEntries none],
        false⟩ ∧
    handleMouseUpDrop [⟨"A", "A", true, ""⟩, ⟨"B", "A/B", true, ""⟩] []
        "A/B" none (some "A/B") = ⟨[], false⟩) :=
  ⟨by decide, by decide, by decide,
    cycle_guard_amended [⟨"A", "A", true, ""⟩, ⟨"B", "A/B", true, ""⟩] []
      "A" "A/B" ⟨"B", "A/B", true, ""⟩ (by decide) (by decide) (by decide)⟩

/-- C3: the final sidebar variant imports `reorderEntries` from the API
module, but neither `tauri-api.ts` nor its mock defines or exports it; hence
calling it throws before any backend command, the same-directory reorder
branch of `performReorder` issues no API call at all and ends in the catch
block, and the ordering step of a folder-exit drop likewise fails with no
order write. -/
theorem reorder_api_missing (entries : List Entry) (src : String)
    (info : InsertionLine) :
    "reorderEntries" ∈ enhancedSidebarApiImports ∧
    "reorderEntries" ∉ tauriApiValueExports ∧
    "reorderEntries" ∉ mockTauriApiValueExports ∧
    reorderEntriesDefined = false ∧
    (isFolderExit entries src info = false →
      (getParentPath info.path == getParentPath src) = true →
      performReorder entries src info = ⟨[], true⟩) ∧
    (isFolderExit entries src info = true →
      (performReorder entries src info).errored = true ∧
      (performReorder entries src info).calls.filter isOrderWrite = []) := by
  have hrd : reorderEntriesDefined = false := by decide
  refine ⟨by decide, by decide, by decide, hrd, ?_, ?_⟩
  · intro hexit heq
    simp [performReorder, hexit, hrd, bne, heq]
  · intro hexit
    simp [performReorder, hexit, hrd, isMutation, isOrderWrite]

/-- Witness for `reorder_api_missing`: a same-directory reorder of
`Daily/a.md` relative to `Daily/b.md` (a file target, same parent). -/
theorem reorder_api_missing_witness :
    "reorderEntries" ∈ enhancedSidebarApiImports ∧
    "reorderEntries" ∉ tauriApiValueExports ∧
    "reorderEntries" ∉ mockTauriApiValueExports ∧
    reorderEntriesDefined = false ∧
    (isFolderExit [⟨"b.md", "Daily/b.md", false, ""⟩] "Daily/a.md"
        ⟨.before, "Daily/b.md", 1⟩ = false →
      (getParentPath "Daily/b.md" == getParentPath "Daily/a.md") = true →
      performReorder [⟨"b.md", "Daily/b.md", false, ""⟩] "Daily/a.md"
        ⟨.before, "Daily/b.md", 1⟩ = ⟨[], true⟩) ∧
    (isFolderExit [⟨"b.md", "Daily/b.md", false, ""⟩] "Daily/a.md"
        ⟨.before, "Daily/b.md", 1⟩ = true →
      (performReorder [⟨"b.md", "Daily/b.md", false, ""⟩] "Daily/a.md"
        ⟨.before, "Daily/b.md", 1⟩).errored = true ∧
      (performReorder [⟨"b.md", "Daily/b.md", false, ""⟩] "Daily/a.md"
        ⟨.before, "Daily/b.md", 1⟩).calls.filter isOrderWrite = []) :=
  reorder_api_missing [⟨"b.md", "Daily/b.md", false, ""⟩] "Daily/a.md"
    ⟨.before, "Daily/b.md", 1⟩

/-- C9: every completed drop resolving to a parent directory different from
the source's current parent mutates the Entry Source only through the single
rename into the new parent, and writes no order record in the destination:
this holds for `performDrop` (drop into a folder or the root), for the
cross-directory branch of `performReorder`, and for the folder-exit branch —
whose attempted ordering call (`reorderEntries`) fails before any order
write, leaving the moved entry to the alphabetical fallback. -/
theorem cross_directory_move_frame (entries : List Entry) (src tgt : String)
    (info : InsertionLine) :
    ((performDrop src tgt).calls.filter isMutation =
        [.renameEntry src (joinUnder tgt (baseName src))] ∧
      (performDrop src tgt).calls.filter isOrderWrite = []) ∧
    (isFolderExit entries src info = true →
      (performReorder entries src info).calls.filter isMutation =
        [.renameEntry src (joinUnder (getParentPath info.path) (baseName src))] ∧
      (performReorder entries src info).calls.filter isOrderWrite = []) ∧
    (isFolderExit entries src info = false →
      (getParentPath info.path == getParentPath src) = false →
      (performReorder entries src info).calls.filter isMutation =
        [.renameEntry src (joinUnder (getParentPath info.path) (baseName src))] ∧
      (performReorder entries src info).calls.filter isOrderWrite = []) := by
  have hrd : reorderEntriesDefined = false := by decide
  refine ⟨?_, ?_, ?_⟩
  · simp [performDrop, isMutation, isOrderWrite]
  · intro hexit
    simp [performReorder, hexit, hrd, isMutation, isOrderWrite]
  · intro hexit hneq
    simp [performReorder, hexit, hrd, bne, hneq, isMutation, isOrderWrite]

/-- Witness for `cross_directory_move_frame`: the folder-exit drop of
`Projects/Sub/Note.md` out of its expanded parent folder `Projects/Sub`. -/
theorem cross_directory_move_frame_witness :
    ((performDrop "Projects/Sub/Note.md" "Other").calls.filter isMutation =
        [.renameEntry "Projects/Sub/Note.md"
          (joinUnder "Other" (baseName "Projects/Sub/Note.md"))] ∧
      (performDrop "Projects/Sub/Note.md" "Other").calls.filter isOrderWrite =
        []) ∧
    (isFolderExit [⟨"Sub", "Projects/Sub", true, ""⟩] "Projects/Sub/Note.md"
        ⟨.after, "Projects/Sub", 1⟩ = true →
      (performReorder [⟨"Sub", "Projects/Sub", true, ""⟩] "Projects/Sub/Note.md"
        ⟨.after, "Projects/Sub", 1⟩).calls.filter isMutation =
        [.renameEntry "Projects/Sub/Note.md"
          (joinUnder (getParentPath "Projects/Sub")
            (baseName "Projects/Sub/Note.md"))] ∧
      (performReorder [⟨"Sub", "Projects/Sub", true, ""⟩] "Projects/Sub/Note.md"
        ⟨.after, "Projects/Sub", 1⟩).calls.filter isOrderWrite = []) ∧
    (isFolderExit [⟨"Sub", "Projects/Sub", true, ""⟩] "Projects/Sub/Note.md"
        ⟨.after, "Projects/Sub", 1⟩ = false →
      (getParentPath "Projects/Sub" == getParentPath "Projects/Sub/Note.md") =
        false →
      (performReorder [⟨"Sub", "Projects/Sub", true, ""⟩] "Projects/Sub/Note.md"
        ⟨.after, "Projects/Sub", 1⟩).calls.filter isMutation =
        [.renameEntry "Projects/Sub/Note.md"
          (joinUnder (getParentPath "Projects/Sub")
            (baseName "Projects/Sub/Note.md"))] ∧
      (performReorder [⟨"Sub", "Projects/Sub", true, ""⟩] "Projects/Sub/Note.md"
        ⟨.after, "Projects/Sub", 1⟩).calls.filter isOrderWrite = []) :=
  cross_directory_move_frame [⟨"Sub", "Projects/Sub", true, ""⟩]
    "Projects/Sub/Note.md" "Other" ⟨.after, "Projects/Sub", 1⟩

/-- C10 counterexample: a failed listing of `A` leaves the rendered children
untouched (first half of the claim holds) but the error is NOT surfaced to
the caller: the promise resolves normally and the failure only reaches
`console.error` — the caller cannot distinguish it from success. -/
theorem list_failure_counterexample :
    (loadChildrenForFolder treeWithLoadedA [] "A"
      (Except.error "listing failed")).tree = treeWithLoadedA ∧
    (loadChildrenForFolder treeWithLoadedA [] "A"
      (Except.error "listing failed")).thrownToCaller = false ∧
    (loadChildrenForFolder treeWithLoadedA [] "A"
      (Except.error "listing failed")).consoleErrors = 1 := by
  refine ⟨rfl, rfl, rfl⟩

/-- C10 (amended): a failed `list()` call leaves the previous children (and
the whole tree) untouched and never clears already-rendered nodes, but the
error is swallowed after a console log: the caller observes normal
completion. -/
theorem list_failure_amended (prevTree : List FileTreeNode)
    (expandedPaths : List String) (folderPath msg : String) :
    loadChildrenForFolder prevTree expandedPaths folderPath
      (Except.error msg) = ⟨prevTree, 1, false⟩ := rfl

theorem lex_le_same {α β : Type} [LinearOrder α] [LE β] (x : α) (u v : β) :
    toLex (x, u) ≤ toLex (x, v) ↔ u ≤ v := by
  rw [Prod.Lex.le_iff]
  simp

theorem lex_le_of_lt {α β : Type} [LinearOrder α] [LE β] {x y : α}
    (h : x < y) (u v : β) : toLex (x, u) ≤ toLex (y, v) := by
  rw [Prod.Lex.le_iff]
  exact Or.inl h

theorem not_lex_le_of_lt {α β : Type} [LinearOrder α] [LE β] {x y : α}
    (h : y < x) (u v : β) : ¬ toLex (x, u) ≤ toLex (y, v) := by
  rw [Prod.Lex.le_iff]
  rintro (h' | ⟨he, _⟩)
  · exact absurd h' (lt_asymm h)
  · have he' : x = y := he
    rw [he'] at h
    exact lt_irrefl _ h

/-- The modelled `localeCompare` is non-positive exactly when the pair
(case-folded name, raw name) is lexicographically no greater. -/
theorem localeCompare_le_iff (a b : String) :
    localeCompare a b ≤ 0 ↔
      toLex (a.data.map Char.toLower, a.data) ≤
        toLex (b.data.map Char.toLower, b.data) := by
  simp only [localeCompare]
  split_ifs with h1 h2 h3 h4
  · exact iff_of_true (by norm_num) (lex_le_of_lt h1 _ _)
  · exact iff_of_false (by norm_num) (not_lex_le_of_lt h2 _ _)
  · have hfold : a.data.map Char.toLower = b.data.map Char.toLower :=
      le_antisymm (not_lt.mp h2) (not_lt.mp h1)
    rw [hfold, lex_le_same]
    exact iff_of_true (by norm_num) (le_of_lt h3)
  · have hfold : a.data.map Char.toLower = b.data.map Char.toLower :=
      le_antisymm (not_lt.mp h2) (not_lt.mp h1)
    rw [hfold, lex_le_same]
    exact iff_of_false (by norm_num) (not_le.mpr h4)
  · have hfold : a.data.map Char.toLower = b.data.map Char.toLower :=
      le_antisymm (not_lt.mp h2) (not_lt.mp h1)
    have hdata : a.data = b.data := le_antisymm (not_lt.mp h4) (not_lt.mp h3)
    rw [hfold, lex_le_same, hdata]
    exact iff_of_true (by norm_num) le_rfl

/-- The backup comparator's non-positive half agrees with the lexicographic
key order: this packages consistency (transitivity and totality) of the
comparator. -/
theorem cmpChildren_le_iff_key (saved : List String) (a b : Entry) :
    cmpChildren saved a b ≤ 0 ↔ sortKey saved a ≤ sortKey saved b := by
  simp only [cmpChildren, sortKey]
  by_cases hne : savedIndex saved a.name = savedIndex saved b.name
  · rw [if_neg (by simp [hne]), hne, lex_le_same]
    cases hda : a.is_dir <;> cases hdb : b.is_dir <;>
      simp only [hda, hdb, entryRank, Bool.not_true, Bool.not_false,
        Bool.true_and, Bool.false_and, Bool.and_true, Bool.and_false,
        Bool.false_eq_true, if_true, if_false, ite_true, ite_false]
    · rw [lex_le_same]
      exact localeCompare_le_iff _ _
    · exact iff_of_false (by norm_num) (not_lex_le_of_lt (by norm_num) _ _)
    · exact iff_of_true (by norm_num) (lex_le_of_lt (by norm_num) _ _)
    · rw [lex_le_same]
      exact localeCompare_le_iff _ _
  · rw [if_pos hne]
    rcases Nat.lt_or_ge (savedIndex saved a.name) (savedIndex saved b.name)
      with hlt | hge
    · exact iff_of_true (by omega) (lex_le_of_lt hlt _ _)
    · have hgt : savedIndex saved b.name < savedIndex saved a.name := by
        omega
      exact iff_of_false (by omega) (not_lex_le_of_lt hgt _ _)

theorem childLe_trans (saved : List String) :
    ∀ a b c : FileTreeNode, childLe saved a b → childLe saved b c →
      childLe saved a c := by
  intro a b c hab hbc
  unfold childLe at *
  rw [cmpChildren_le_iff_key] at *
  exact le_trans hab hbc

theorem childLe_total (saved : List String) :
    ∀ a b : FileTreeNode, childLe saved a b ∨ childLe saved b a := by
  intro a b
  unfold childLe
  rw [cmpChildren_le_iff_key, cmpChildren_le_iff_key]
  exact le_total _ _

/-- C5: when the order record for a directory is empty (`load` returned
`[]`, which is how a missing sidecar reads), the materialized sibling list
is a permutation of the listed children in which every directory precedes
every file and entries of the same kind appear in case-insensitive name
order. -/
theorem empty_order_fallback_sort (nodes : List FileTreeNode) :
    (sortChildNodes [] nodes).Perm nodes ∧
    (sortChildNodes [] nodes).Pairwise (fun a b =>
      (b.entry.is_dir = true → a.entry.is_dir = true) ∧
      (a.entry.is_dir = b.entry.is_dir →
        ¬ b.entry.name.data.map Char.toLower <
            a.entry.name.data.map Char.toLower)) := by
  constructor
  · exact List.perm_insertionSort _ nodes
  · haveI : IsTrans FileTreeNode (childLe []) := ⟨childLe_trans []⟩
    haveI : IsTotal FileTreeNode (childLe []) := ⟨childLe_total []⟩
    have hsorted := List.sorted_insertionSort (childLe []) nodes
    refine hsorted.imp ?_
    intro a b hab
    have hkey := (cmpChildren_le_iff_key [] a.entry b.entry).mp hab
    simp only [sortKey, savedIndex, nameToIndex, Option.getD_none] at hkey
    rw [lex_le_same] at hkey
    constructor
    · intro hdb
      by_contra hda
      have hranks : entryRank b.entry < entryRank a.entry := by
        simp [entryRank, hdb, hda]
      exact not_lex_le_of_lt hranks _ _ hkey
    · intro hkind
      have hranks : entryRank a.entry = entryRank b.entry := by
        simp [entryRank, hkind]
      rw [hranks, lex_le_same] at hkey
      rw [Prod.Lex.le_iff] at hkey
      rcases hkey with h | ⟨he, _⟩
      · exact lt_asymm h
      · have he' : a.entry.name.data.map Char.toLower =
            b.entry.name.data.map Char.toLower := he
        rw [he']
        exact lt_irrefl _

/-- C6 counterexample (the specification's own §8 scenario): with saved
order `["Beta.md", "Gamma"]`, the backup comparator sorts the file `Beta.md`
BEFORE the directory `Gamma`, because the saved-order index is compared
before the directory/file distinction — so an order record can place a file
above a directory, contradicting "every directory precedes every file
regardless of the record's contents" and "an explicit position decides
relative placement only between two entries of the same kind". -/
theorem order_overrides_kind_counterexample :
    (sortChildNodes ["Beta.md", "Gamma"]
        [⟨⟨"Gamma", "Notes/Gamma", true, ""⟩, [], false⟩,
         ⟨⟨"Beta.md", "Notes/Beta.md", false, ""⟩, [], false⟩]).map
      (fun n => (n.entry.name, n.entry.is_dir)) =
    [("Beta.md", false), ("Gamma", true)] := by
  decide

theorem cmpNodesFinal_eq_empty_saved (a b : FileTreeNode) :
    cmpNodesFinal a b = cmpChildren [] a.entry b.entry := by
  simp [cmpNodesFinal, cmpChildren, savedIndex, nameToIndex]

theorem nameToIndex_isSome (n : String) (saved : List String) :
    ∀ base, (nameToIndex saved base n).isSome = saved.contains n := by
  induction saved with
  | nil => intro base; simp [nameToIndex]
  | cons s rest ih =>
    intro base
    simp only [nameToIndex]
    cases hmatch : nameToIndex rest (base + 1) n with
    | none =>
      have h2 := ih (base + 1)
      rw [hmatch] at h2
      simp only [Option.isSome_none] at h2
      by_cases hs : s = n
      · subst hs
        simp [List.contains_cons]
      · have h1 : (s == n) = false := beq_eq_false_iff_ne.mpr hs
        have h1' : (n == s) = false := beq_eq_false_iff_ne.mpr (Ne.symm hs)
        rw [if_neg (by simp [h1]), List.contains_cons, h1', ← h2]
        simp
    | some j =>
      have h2 := ih (base + 1)
      rw [hmatch] at h2
      simp only [Option.isSome_some] at h2
      rw [List.contains_cons, ← h2]
      simp

theorem nameToIndex_bound (n : String) (saved : List String) :
    ∀ base j, nameToIndex saved base n = some j →
      base ≤ j ∧ j < base + saved.length := by
  induction saved with
  | nil => intro base j h; simp [nameToIndex] at h
  | cons s rest ih =>
    intro base j h
    simp only [nameToIndex] at h
    cases hmatch : nameToIndex rest (base + 1) n with
    | none =>
      rw [hmatch] at h
      by_cases hs : (s == n) = true
      · rw [if_pos hs] at h
        injection h with hj
        subst hj
        refine ⟨Nat.le_refl _, ?_⟩
        simp only [List.length_cons]
        omega
      · rw [if_neg hs] at h
        cases h
    | some jr =>
      rw [hmatch] at h
      injection h with hj
      subst hj
      have hb := ih (base + 1) jr hmatch
      simp only [List.length_cons]
      omega

/-- A name present in the record gets an index below the sentinel (as long
as the record is not absurdly long), a name absent from it gets exactly the
sentinel. -/
theorem savedIndex_spec (saved : List String) (n : String)
    (hlen : saved.length ≤ MAX_SAFE_INTEGER) :
    (saved.contains n = true → savedIndex saved n < MAX_SAFE_INTEGER) ∧
    (saved.contains n = false → savedIndex saved n = MAX_SAFE_INTEGER) := by
  constructor
  · intro hmem
    have hsome := nameToIndex_isSome n saved 0
    rw [hmem] at hsome
    cases hmatch : nameToIndex saved 0 n with
    | none => rw [hmatch] at hsome; simp at hsome
    | some j =>
      have hb := nameToIndex_bound n saved 0 j hmatch
      simp [savedIndex, hmatch]
      omega
  · intro hmem
    have hsome := nameToIndex_isSome n saved 0
    rw [hmem] at hsome
    cases hmatch : nameToIndex saved 0 n with
    | none => simp [savedIndex, hmatch, MAX_SAFE_INTEGER]
    | some j => rw [hmatch] at hsome; simp at hsome

theorem childLe_empty_dir (a b : FileTreeNode) (hab : childLe [] a b)
    (hdb : b.entry.is_dir = true) : a.entry.is_dir = true := by
  by_contra hda
  have hkey := (cmpChildren_le_iff_key [] a.entry b.entry).mp hab
  simp only [sortKey, savedIndex, nameToIndex, Option.getD_none] at hkey
  rw [lex_le_same] at hkey
  have hranks : entryRank b.entry < entryRank a.entry := by
    simp [entryRank, hdb, hda]
  exact not_lex_le_of_lt hranks _ _ hkey

/-- C6 (amended): the explicit Order Store position is the comparator's
FIRST criterion, not a same-kind tie-break — between any two entries present
in the record the record decides regardless of kind; an entry present in the
record precedes every entry absent from it; only among entries absent from
the record do directories precede files, with case-insensitive name order
inside the same kind; the final variant's root-level `sortNodes`, which
consults no record, does keep every directory before every file. -/
theorem order_record_precedence (saved : List String) (a b : Entry)
    (hlen : saved.length ≤ MAX_SAFE_INTEGER) :
    (saved.contains a.name = true → saved.contains b.name = true →
      savedIndex saved a.name < savedIndex saved b.name →
      cmpChildren saved a b < 0) ∧
    (saved.contains a.name = true → saved.contains b.name = false →
      cmpChildren saved a b < 0) ∧
    (saved.contains a.name = false → saved.contains b.name = false →
      a.is_dir = true → b.is_dir = false → cmpChildren saved a b < 0) ∧
    (saved.contains a.name = false → saved.contains b.name = false →
      a.is_dir = b.is_dir →
      (cmpChildren saved a b ≤ 0 ↔ localeCompare a.name b.name ≤ 0)) ∧
    (∀ expandedPaths entries, (buildFileTree expandedPaths entries).Pairwise
      (fun x y => y.entry.is_dir = true → x.entry.is_dir = true)) := by
  refine ⟨?_, ?_, ?_, ?_, ?_⟩
  · intro _ _ hlt
    have hne : savedIndex saved a.name ≠ savedIndex saved b.name := by omega
    simp only [cmpChildren, if_pos hne]
    omega
  · intro ha hb
    have hia := (savedIndex_spec saved a.name hlen).1 ha
    have hib := (savedIndex_spec saved b.name hlen).2 hb
    have hne : savedIndex saved a.name ≠ savedIndex saved b.name := by omega
    simp only [cmpChildren, if_pos hne]
    omega
  · intro ha hb hda hdb
    have hia := (savedIndex_spec saved a.name hlen).2 ha
    have hib := (savedIndex_spec saved b.name hlen).2 hb
    have heq : savedIndex saved a.name = savedIndex saved b.name := by omega
    simp only [cmpChildren, if_neg (by simp [heq] : ¬ savedIndex saved a.name ≠ savedIndex saved b.name)]
    simp [hda, hdb]
  · intro ha hb hkind
    have hia := (savedIndex_spec saved a.name hlen).2 ha
    have hib := (savedIndex_spec saved b.name hlen).2 hb
    have heq : savedIndex saved a.name = savedIndex saved b.name := by omega
    simp only [cmpChildren, if_neg (by simp [heq] : ¬ savedIndex saved a.name ≠ savedIndex saved b.name)]
    cases hda : a.is_dir <;> rw [hda] at hkind <;> simp [← hkind]
  · intro expandedPaths entries
    haveI : IsTrans FileTreeNode nodeLeFinal :=
      ⟨fun x y z hxy hyz => by
        unfold nodeLeFinal at *
        rw [cmpNodesFinal_eq_empty_saved] at *
        exact childLe_trans [] x y z hxy hyz⟩
    haveI : IsTotal FileTreeNode nodeLeFinal :=
      ⟨fun x y => by
        unfold nodeLeFinal
        rw [cmpNodesFinal_eq_empty_saved, cmpNodesFinal_eq_empty_saved]
        exact childLe_total [] x y⟩
    have hsorted := List.sorted_insertionSort nodeLeFinal
      ((entries.filter
          (fun e => !((".tau_order.json".data).isSuffixOf e.name.data))).filter
        (fun e => !(containsChar e.path '/') && !(containsChar e.path '\\'))
        |>.map (fun e => ⟨e, [], expandedPaths.contains e.path⟩))
    refine List.Pairwise.imp ?_ hsorted
    intro x y hxy
    have : childLe [] x y := by
      unfold nodeLeFinal at hxy
      rw [cmpNodesFinal_eq_empty_saved] at hxy
      exact hxy
    exact childLe_empty_dir x y this

/-- Witness for `order_record_precedence` at the §8 scenario record
`["Beta.md", "Gamma"]` with the directory `Gamma` and the file `Beta.md`. -/
theorem order_record_precedence_witness :
    (["Beta.md", "Gamma"].length ≤ MAX_SAFE_INTEGER) ∧
    ((["Beta.md", "Gamma"].contains (Entry.name ⟨"Gamma", "Notes/Gamma", true, ""⟩) = true →
      ["Beta.md", "Gamma"].contains (Entry.name ⟨"Beta.md", "Notes/Beta.md", false, ""⟩) = true →
      savedIndex ["Beta.md", "Gamma"] (Entry.name ⟨"Gamma", "Notes/Gamma", true, ""⟩) <
        savedIndex ["Beta.md", "Gamma"] (Entry.name ⟨"Beta.md", "Notes/Beta.md", false, ""⟩) →
      cmpChildren ["Beta.md", "Gamma"] ⟨"Gamma", "Notes/Gamma", true, ""⟩
        ⟨"Beta.md", "Notes/Beta.md", false, ""⟩ < 0) ∧
    (["Beta.md", "Gamma"].contains (Entry.name ⟨"Gamma", "Notes/Gamma", true, ""⟩) = true →
      ["Beta.md", "Gamma"].contains (Entry.name ⟨"Beta.md", "Notes/Beta.md", false, ""⟩) = false →
      cmpChildren ["Beta.md", "Gamma"] ⟨"Gamma", "Notes/Gamma", true, ""⟩
        ⟨"Beta.md", "Notes/Beta.md", false, ""⟩ < 0) ∧
    (["Beta.md", "Gamma"].contains (Entry.name ⟨"Gamma", "Notes/Gamma", true, ""⟩) = false →
      ["Beta.md", "Gamma"].contains (Entry.name ⟨"Beta.md", "Notes/Beta.md", false, ""⟩) = false →
      (⟨"Gamma", "Notes/Gamma", true, ""⟩ : Entry).is_dir = true →
      (⟨"Beta.md", "Notes/Beta.md", false, ""⟩ : Entry).is_dir = false →
      cmpChildren ["Beta.md", "Gamma"] ⟨"Gamma", "Notes/Gamma", true, ""⟩
        ⟨"Beta.md", "Notes/Beta.md", false, ""⟩ < 0) ∧
    (["Beta.md", "Gamma"].contains (Entry.name ⟨"Gamma", "Notes/Gamma", true, ""⟩) = false →
      ["Beta.md", "Gamma"].contains (Entry.name ⟨"Beta.md", "Notes/Beta.md", false, ""⟩) = false →
      (⟨"Gamma", "Notes/Gamma", true, ""⟩ : Entry).is_dir =
        (⟨"Beta.md", "Notes/Beta.md", false, ""⟩ : Entry).is_dir →
      (cmpChildren ["Beta.md", "Gamma"] ⟨"Gamma", "Notes/Gamma", true, ""⟩
          ⟨"Beta.md", "Notes/Beta.md", false, ""⟩ ≤ 0 ↔
        localeCompare (Entry.name ⟨"Gamma", "Notes/Gamma", true, ""⟩)
          (Entry.name ⟨"Beta.md", "Notes/Beta.md", false, ""⟩) ≤ 0)) ∧
    (∀ expandedPaths entries, (buildFileTree expandedPaths entries).Pairwise
      (fun x y => y.entry.is_dir = true → x.entry.is_dir = true))) :=
  ⟨by decide,
    order_record_precedence ["Beta.md", "Gamma"] ⟨"Gamma", "Notes/Gamma", true, ""⟩
      ⟨"Beta.md", "Notes/Beta.md", false, ""⟩ (by decide)⟩

theorem erase_eq_eraseIdx_indexOf (l : List String) (a : String) :
    l.erase a = l.eraseIdx (List.indexOf a l) := by
  induction l with
  | nil => rfl
  | cons x xs ih =>
    rw [List.erase_cons, List.indexOf_cons]
    by_cases hx : (x == a) = true
    · simp [hx]
    · simp [hx]

theorem indexOf_eraseIdx_of_lt (l : List String) (s t : String)
    (hs : s ∈ l) (ht : t ∈ l)
    (hlt : List.indexOf s l < List.indexOf t l) :
    List.indexOf t (l.eraseIdx (List.indexOf s l)) =
      List.indexOf t l - 1 := by
  induction l with
  | nil => cases hs
  | cons x xs ih =>
    cases hxs : x == s with
    | true =>
      have hxt : (x == t) = false := by
        cases hxt2 : x == t with
        | false => rfl
        | true =>
          exfalso
          simp only [List.indexOf_cons, hxs, hxt2, cond_true] at hlt
          omega
      simp only [List.indexOf_cons, hxs, hxt, cond_true, cond_false,
        List.eraseIdx_cons_zero]
      omega
    | false =>
      cases hxt : x == t with
      | true =>
        exfalso
        simp only [List.indexOf_cons, hxs, hxt, cond_true, cond_false] at hlt
        omega
      | false =>
        have hs' : s ∈ xs := by
          rcases List.mem_cons.mp hs with h | h
          · exact absurd (beq_iff_eq.mpr h.symm) (by rw [hxs]; exact Bool.false_ne_true)
          · exact h
        have ht' : t ∈ xs := by
          rcases List.mem_cons.mp ht with h | h
          · exact absurd (beq_iff_eq.mpr h.symm) (by rw [hxt]; exact Bool.false_ne_true)
          · exact h
        simp only [List.indexOf_cons, hxs, hxt, cond_false] at hlt
        have hlt' : List.indexOf s xs < List.indexOf t xs := by omega
        have ihx := ih hs' ht' hlt'
        simp only [List.indexOf_cons, hxs, hxt, cond_false,
          List.eraseIdx_cons_succ]
        omega

theorem indexOf_eraseIdx_of_gt (l : List String) (s t : String)
    (hs : s ∈ l) (ht : t ∈ l)
    (hgt : List.indexOf t l < List.indexOf s l) :
    List.indexOf t (l.eraseIdx (List.indexOf s l)) =
      List.indexOf t l := by
  induction l with
  | nil => cases hs
  | cons x xs ih =>
    cases hxt : x == t with
    | true =>
      have hxs : (x == s) = false := by
        cases hxs2 : x == s with
        | false => rfl
        | true =>
          exfalso
          simp only [List.indexOf_cons, hxs2, hxt, cond_true] at hgt
          omega
      simp only [List.indexOf_cons, hxs, hxt, cond_true, cond_false,
        List.eraseIdx_cons_succ]
    | false =>
      cases hxs : x == s with
      | true =>
        exfalso
        simp only [List.indexOf_cons, hxs, hxt, cond_true, cond_false] at hgt
        omega
      | false =>
        have hs' : s ∈ xs := by
          rcases List.mem_cons.mp hs with h | h
          · exact absurd (beq_iff_eq.mpr h.symm) (by rw [hxs]; exact Bool.false_ne_true)
          · exact h
        have ht' : t ∈ xs := by
          rcases List.mem_cons.mp ht with h | h
          · exact absurd (beq_iff_eq.mpr h.symm) (by rw [hxt]; exact Bool.false_ne_true)
          · exact h
        simp only [List.indexOf_cons, hxs, hxt, cond_false] at hgt
        have hgt' : List.indexOf t xs < List.indexOf s xs := by omega
        have ihx := ih hs' ht' hgt'
        simp only [List.indexOf_cons, hxs, hxt, cond_false,
          List.eraseIdx_cons_succ]
        omega

/-- C4: for a same-parent reorder with sibling order `order`, source name
`s` and target name `t` (both present, distinct), the order handed to
`saveOrder` is exactly `order` with `s` removed and reinserted immediately
before `t` (position "before") or immediately after `t` (position "after",
target index adjusted by `+1`), so `s` and `t` end up adjacent on the
specified side. -/
theorem same_parent_reorder_splice (order : List String) (s t : String)
    (pos : InsertPos) (hs : s ∈ order) (ht : t ∈ order) (hne : s ≠ t) :
    dragEndReorder order s t pos =
      some (specReorderedNames order s t pos) ∧
    (∃ pre post, specReorderedNames order s t pos =
      pre ++ (match pos with | .before => [s, t] | .after => [t, s]) ++
        post) := by
  have hflen : List.indexOf s order < order.length :=
    List.indexOf_lt_length.mpr hs
  have hblen : List.indexOf t order < order.length :=
    List.indexOf_lt_length.mpr ht
  have hget_s : order[List.indexOf s order] = s := List.getElem_indexOf hflen
  have hfb : List.indexOf s order ≠ List.indexOf t order := by
    intro h
    apply hne
    calc s = order.get ⟨List.indexOf s order, hflen⟩ :=
          (List.indexOf_get hflen).symm
      _ = order.get ⟨List.indexOf t order, hblen⟩ :=
          congrArg order.get (Fin.ext h)
      _ = t := List.indexOf_get hblen
  have herase : order.erase s = order.eraseIdx (List.indexOf s order) :=
    erase_eq_eraseIdx_indexOf order s
  have htmem : t ∈ order.erase s := (List.mem_erase_of_ne (Ne.symm hne)).mpr ht
  have hkrest : List.indexOf t (order.erase s) < (order.erase s).length :=
    List.indexOf_lt_length.mpr htmem
  have hrest_get : (order.erase s)[List.indexOf t (order.erase s)] = t :=
    List.getElem_indexOf hkrest
  have hmove : ∀ j, arrayMove order (List.indexOf s order) j =
      insertAt (order.eraseIdx (List.indexOf s order)) j s := by
    intro j
    unfold arrayMove
    rw [List.getElem?_eq_getElem hflen, hget_s]
  constructor
  · rcases Nat.lt_or_ge (List.indexOf s order) (List.indexOf t order)
      with hlt | hge
    · have hk := indexOf_eraseIdx_of_lt order s t hs ht hlt
      cases pos with
      | before =>
        simp only [dragEndReorder]
        rw [if_pos (And.intro hs ht),
          if_pos (by omega : List.indexOf t order > List.indexOf s order),
          hmove]
        simp only [specReorderedNames]
        rw [herase, hk]
      | after =>
        simp only [dragEndReorder]
        rw [if_pos (And.intro hs ht),
          if_pos (by omega : List.indexOf t order + 1 > List.indexOf s order),
          hmove]
        simp only [specReorderedNames]
        rw [herase, hk]
        have harith : List.indexOf t order + 1 - 1 =
            List.indexOf t order - 1 + 1 := by omega
        rw [harith]
    · have hgt : List.indexOf t order < List.indexOf s order := by omega
      have hk := indexOf_eraseIdx_of_gt order s t hs ht hgt
      cases pos with
      | before =>
        simp only [dragEndReorder]
        rw [if_pos (And.intro hs ht),
          if_neg (by omega : ¬ List.indexOf t order > List.indexOf s order),
          hmove]
        simp only [specReorderedNames]
        rw [herase, hk]
      | after =>
        simp only [dragEndReorder]
        rw [if_pos (And.intro hs ht),
          if_neg (by omega :
            ¬ List.indexOf t order + 1 > List.indexOf s order),
          hmove]
        simp only [specReorderedNames]
        rw [herase, hk]
  · cases pos with
    | before =>
      refine ⟨(order.erase s).take (List.indexOf t (order.erase s)),
              (order.erase s).drop (List.indexOf t (order.erase s) + 1), ?_⟩
      simp only [specReorderedNames, insertAt]
      rw [List.drop_eq_getElem_cons hkrest, hrest_get]
      simp
    | after =>
      refine ⟨(order.erase s).take (List.indexOf t (order.erase s)),
              (order.erase s).drop (List.indexOf t (order.erase s) + 1), ?_⟩
      simp only [specReorderedNames, insertAt]
      rw [List.take_succ, List.getElem?_eq_getElem hkrest, hrest_get]
      simp

/-- Witness for `same_parent_reorder_splice`: the specification's `Daily`
scenario — dragging `2024-01-14.md` before `2024-01-15.md` within the same
directory. -/
theorem same_parent_reorder_splice_witness :
    ("2024-01-14.md" ∈ ["2024-01-15.md", "2024-01-14.md"]) ∧
    ("2024-01-15.md" ∈ ["2024-01-15.md", "2024-01-14.md"]) ∧
    ("2024-01-14.md" ≠ "2024-01-15.md") ∧
    (dragEndReorder ["2024-01-15.md", "2024-01-14.md"] "2024-01-14.md"
        "2024-01-15.md" .before =
      some (specReorderedNames ["2024-01-15.md", "2024-01-14.md"]
        "2024-01-14.md" "2024-01-15.md" .before) ∧
    (∃ pre post, specReorderedNames ["2024-01-15.md", "2024-01-14.md"]
        "2024-01-14.md" "2024-01-15.md" .before =
      pre ++ ["2024-01-14.md", "2024-01-15.md"] ++ post)) :=
  ⟨by decide, by decide, by decide,
    same_parent_reorder_splice ["2024-01-15.md", "2024-01-14.md"]
      "2024-01-14.md" "2024-01-15.md" .before (by decide) (by decide)
      (by decide)⟩

example : jsonParseStrings (jsonStringifyStrings ["Alpha.md", "Beta"]) =
    some ["Alpha.md", "Beta"] := by decide

example : jsonParseStrings (jsonStringifyStrings []) = some [] := by decide

example :
    jsonParseStrings (jsonStringifyStrings ["a\"b\\c", "x\n\t", ""]) =
      some ["a\"b\\c", "x\n\t", ""] := by decide

example :
    jsonParseStrings (jsonStringifyStrings [String.mk [Char.ofNat 7]]) =
      some [String.mk [Char.ofNat 7]] := by decide

theorem one_le_escChar_length (c : Char) : 1 ≤ (escChar c).length := by
  unfold escChar
  split_ifs <;> simp

theorem length_le_escapeChars (s : List Char) :
    s.length ≤ (escapeChars s).length := by
  induction s with
  | nil => simp [escapeChars]
  | cons c cs ih =>
    simp only [escapeChars, List.length_append, List.length_cons]
    have := one_le_escChar_length c
    omega

theorem hexVal_hexDigitChar (m : Nat) (hm : m < 16) :
    hexVal (hexDigitChar m) = some m := by
  interval_cases m <;> decide

theorem parseEsc_quote (r : List Char) : parseEsc ('"' :: r) = some ('"', r) := rfl

theorem parseEsc_back (r : List Char) : parseEsc ('\\' :: r) = some ('\\', r) := rfl

theorem parseEsc_n (r : List Char) : parseEsc ('n' :: r) = some ('\n', r) := rfl

theorem parseEsc_r (r : List Char) : parseEsc ('r' :: r) = some ('\r', r) := rfl

theorem parseEsc_t (r : List Char) : parseEsc ('t' :: r) = some ('\t', r) := rfl

theorem parseEsc_b (r : List Char) : parseEsc ('b' :: r) = some (Char.ofNat 8, r) := rfl

theorem parseEsc_f (r : List Char) : parseEsc ('f' :: r) = some (Char.ofNat 12, r) := rfl

theorem parseEsc_u (a b c d : Char) (r : List Char) :
    parseEsc ('u' :: a :: b :: c :: d :: r) =
      match hexVal a, hexVal b, hexVal c, hexVal d with
      | some x, some y, some z, some w =>
        some (Char.ofNat (((x * 16 + y) * 16 + z) * 16 + w), r)
      | _, _, _, _ => none := rfl

theorem parseStr_succ (f : Nat) (c : Char) (rest : List Char) :
    parseStr (f + 1) (c :: rest) =
      if c == '"' then some ([], rest)
      else if c == '\\' then
        match parseEsc rest with
        | none => none
        | some (ch, rest2) =>
          match parseStr f rest2 with
          | none => none
          | some (s, rest3) => some (ch :: s, rest3)
      else
        match parseStr f rest with
        | none => none
        | some (s, rest2) => some (c :: s, rest2) := rfl

theorem parseStr_escape (s : List Char) :
    ∀ (fuel : Nat) (rest : List Char), s.length < fuel →
      parseStr fuel (escapeChars s ++ '"' :: rest) = some (s, rest) := by
  induction s with
  | nil =>
    intro fuel rest hfuel
    cases fuel with
    | zero => omega
    | succ f =>
      show parseStr (f + 1) ([] ++ '"' :: rest) = some ([], rest)
      rw [List.nil_append, parseStr_succ, if_pos (by decide)]
  | cons c cs ih =>
    intro fuel rest hfuel
    cases fuel with
    | zero => omega
    | succ f =>
      have hrec := ih f rest (by
        simp only [List.length_cons] at hfuel
        omega)
      show parseStr (f + 1) (escChar c ++ escapeChars cs ++ '"' :: rest) =
        some (c :: cs, rest)
      unfold escChar
      split_ifs with h1 h2 h3 h4 h5 h6 h7 h8
      · have hc : c = '"' := beq_iff_eq.mp h1
        subst hc
        simp only [List.cons_append, List.nil_append]
        rw [parseStr_succ, if_neg (by decide), if_pos (by decide),
          parseEsc_quote]
        dsimp only
        rw [hrec]
      · have hc : c = '\\' := beq_iff_eq.mp h2
        subst hc
        simp only [List.cons_append, List.nil_append]
        rw [parseStr_succ, if_neg (by decide), if_pos (by decide),
          parseEsc_back]
        dsimp only
        rw [hrec]
      · have hc : c = '\n' := beq_iff_eq.mp h3
        subst hc
        simp only [List.cons_append, List.nil_append]
        rw [parseStr_succ, if_neg (by decide), if_pos (by decide),
          parseEsc_n]
        dsimp only
        rw [hrec]
      · have hc : c = '\r' := beq_iff_eq.mp h4
        subst hc
        simp only [List.cons_append, List.nil_append]
        rw [parseStr_succ, if_neg (by decide), if_pos (by decide),
          parseEsc_r]
        dsimp only
        rw [hrec]
      · have hc : c = '\t' := beq_iff_eq.mp h5
        subst hc
        simp only [List.cons_append, List.nil_append]
        rw [parseStr_succ, if_neg (by decide), if_pos (by decide),
          parseEsc_t]
        dsimp only
        rw [hrec]
      · have hc : c = Char.ofNat 8 := by
          have hn : c.toNat = 8 := beq_iff_eq.mp h6
          rw [← Char.ofNat_toNat c, hn]
        subst hc
        simp only [List.cons_append, List.nil_append]
        rw [parseStr_succ, if_neg (by decide), if_pos (by decide),
          parseEsc_b]
        dsimp only
        rw [hrec]
      · have hc : c = Char.ofNat 12 := by
          have hn : c.toNat = 12 := beq_iff_eq.mp h7
          rw [← Char.ofNat_toNat c, hn]
        subst hc
        simp only [List.cons_append, List.nil_append]
        rw [parseStr_succ, if_neg (by decide), if_pos (by decide),
          parseEsc_f]
        dsimp only
        rw [hrec]
      · have hd1 := hexVal_hexDigitChar (c.toNat / 16) (by omega)
        have hd2 := hexVal_hexDigitChar (c.toNat % 16) (by omega)
        have h0 : hexVal '0' = some 0 := by decide
        have hesc : parseEsc ('u' :: '0' :: '0' ::
            hexDigitChar (c.toNat / 16) :: hexDigitChar (c.toNat % 16) ::
            (escapeChars cs ++ '"' :: rest)) =
            some (c, escapeChars cs ++ '"' :: rest) := by
          rw [parseEsc_u, h0, hd1, hd2]
          dsimp only
          rw [(by omega : ((0 * 16 + 0) * 16 + c.toNat / 16) * 16 +
              c.toNat % 16 = c.toNat), Char.ofNat_toNat]
        simp only [List.cons_append, List.nil_append]
        rw [parseStr_succ, if_neg (by decide), if_pos (by decide), hesc]
        dsimp only
        rw [hrec]
      · simp only [List.cons_append, List.nil_append]
        rw [parseStr_succ, if_neg h1, if_neg h2, hrec]

theorem parseItems_succ (f : Nat) (rest : List Char) :
    parseItems (f + 1) ('"' :: rest) =
      match parseStr (rest.length + 1) rest with
      | none => none
      | some (s, r) =>
        match r with
        | ']' :: r2 => some ([s], r2)
        | ',' :: r2 =>
          match parseItems f r2 with
          | none => none
          | some (ss, r3) => some (s :: ss, r3)
        | _ => none := rfl

theorem encodeItems_length_gt (s : List Char) (ss : List (List Char)) :
    ss.length < (encodeItems s ss).length := by
  induction ss generalizing s with
  | nil => simp [encodeItems]
  | cons t ts ih =>
    simp only [encodeItems, List.length_cons, List.length_append]
    have := ih t
    omega

theorem parseItems_encode (ss : List (List Char)) :
    ∀ (s : List Char) (fuel : Nat) (rest : List Char), ss.length < fuel →
      parseItems fuel (encodeItems s ss ++ rest) = some (s :: ss, rest) := by
  induction ss with
  | nil =>
    intro s fuel rest hfuel
    cases fuel with
    | zero => omega
    | succ f =>
      simp only [encodeItems, List.cons_append, List.append_assoc,
        List.nil_append]
      rw [parseItems_succ]
      have hps := parseStr_escape s
        ((escapeChars s ++ '"' :: ']' :: rest).length + 1) (']' :: rest)
        (by
          have := length_le_escapeChars s
          simp only [List.length_append, List.length_cons]
          omega)
      rw [hps]
      rfl
  | cons t ts ih =>
    intro s fuel rest hfuel
    cases fuel with
    | zero => omega
    | succ f =>
      simp only [encodeItems, List.cons_append, List.append_assoc,
        List.nil_append]
      rw [parseItems_succ]
      have hps := parseStr_escape s
        ((escapeChars s ++ '"' :: ',' :: (encodeItems t ts ++ rest)).length + 1)
        (',' :: (encodeItems t ts ++ rest))
        (by
          have := length_le_escapeChars s
          simp only [List.length_append, List.length_cons]
          omega)
      rw [hps]
      show (match parseItems f (encodeItems t ts ++ rest) with
        | none => none
        | some (ss, r3) => some (s :: ss, r3)) = some (s :: t :: ts, rest)
      rw [ih t f rest (by
        simp only [List.length_cons] at hfuel
        omega)]

theorem mk_data (s : String) : String.mk s.data = s := rfl

theorem jsonParse_encode_chars (ss : List (List Char)) :
    jsonParseStrings (String.mk (jsonEncodeStringList ss)) =
      some (ss.map String.mk) := by
  cases ss with
  | nil => rfl
  | cons s rest =>
    obtain ⟨tail, htail⟩ : ∃ tail, encodeItems s rest = '"' :: tail := by
      cases rest <;> exact ⟨_, rfl⟩
    have hparse := parseItems_encode rest s ((encodeItems s rest).length) []
      (encodeItems_length_gt s rest)
    rw [List.append_nil] at hparse
    show (match ('[' :: encodeItems s rest : List Char) with
      | '[' :: ']' :: r => if r.isEmpty then some [] else none
      | '[' :: r =>
        match parseItems r.length r with
        | none => none
        | some (items, r2) =>
          if r2.isEmpty then some (items.map String.mk) else none
      | _ => none) = some ((s :: rest).map String.mk)
    rw [htail]
    show (match parseItems ('"' :: tail).length ('"' :: tail) with
      | none => none
      | some (items, r2) =>
        if r2.isEmpty then some (items.map String.mk) else none) =
      some ((s :: rest).map String.mk)
    rw [← htail, hparse]
    simp

theorem jsonParse_stringify (names : List String) :
    jsonParseStrings (jsonStringifyStrings names) = some names := by
  have h := jsonParse_encode_chars (names.map String.data)
  simp only [jsonStringifyStrings]
  rw [h, List.map_map]
  congr 1
  exact List.map_id'' mk_data names

/-- C2: `saveOrder(directory, names)` followed by `loadOrder(directory)` on
the resulting resource state (no concurrent writer) returns exactly the
saved list — the JSON sidecar record format round-trips with no loss,
duplication or reordering, for every directory and every list of child-name
strings. -/
theorem save_load_roundtrip (st : Resources) (folderPath : String)
    (names : List String) :
    loadOrder (saveOrder st folderPath names) folderPath = names := by
  simp only [loadOrder, saveOrder, writeNoteRes, beq_self_eq_true, if_true]
  rw [jsonParse_stringify]
